import Mathlib

/-!
# Verification of the fifotest round protocol

A shallow embedding of `src/fifotest.c` (a serial-FIFO link-integrity test
harness): deterministic message generation from a shared PRNG, the
transmit/receive worker pair with short-I/O handling, the byte-level
comparison and diagnostic engine, and the round coordinator loop.

Machine integers are modelled as `Nat`/`Int` with explicit truncation
(`% 256` for the `unsigned char` stores).  Transport I/O is modelled by
explicit oracles: the transmit side receives the result of its single
`write(2)` call, and the receive side a list of `read(2)` results, each
either an error or the chunk of bytes delivered.
-/

namespace Fifotest

/-- PRNG state.  Modelled from the spec: the generator is the external
libbrahe Mersenne-twister PRNG (`brahe_prng_state_t`), not part of
`src/`; the spec requires only a deterministic stream as a function of
seed and call count, `nextByte` returning a byte and `nextRange lo hi`
returning an integer in the inclusive range `[lo, hi]`, each advancing
the stream by one draw.  We model the state as seed plus draw count and
the raw 32-bit stream by a concrete LCG-style mixer. -/
structure brahe_prng_state_t where
  seed : Nat
  count : Nat
deriving DecidableEq, Repr

/-- Modelled from the spec: the raw 32-bit draw of the external PRNG at
the current position of its stream (a concrete deterministic mixer
standing in for the Mersenne twister of libbrahe). -/
def brahe_raw (s : brahe_prng_state_t) : Nat :=
  (1103515245 * (s.seed + 12345 * s.count) + 12345) % 2 ^ 32

/-- Modelled from the spec: `brahe_prng_init` seeds the generator. -/
def brahe_prng_init (seed : Nat) : brahe_prng_state_t := ⟨seed, 0⟩

/-- Modelled from the spec: `brahe_prng_next` produces the next raw draw
(in `[0, 2^32)`) and advances the stream by one draw. -/
def brahe_prng_next (s : brahe_prng_state_t) : Nat × brahe_prng_state_t :=
  (brahe_raw s, ⟨s.seed, s.count + 1⟩)

/-- Modelled from the spec: `brahe_prng_range lo hi` draws an integer in
the inclusive range `[lo, hi]` and advances the stream by one draw. -/
def brahe_prng_range (s : brahe_prng_state_t) (lo hi : Nat) :
    Nat × brahe_prng_state_t :=
  (lo + brahe_raw s % (hi + 1 - lo), ⟨s.seed, s.count + 1⟩)

/-- `struct msg`: length plus body (the `buf[0]` flexible array member),
bytes as `Nat` values `< 256`. -/
structure msg where
  len : Nat
  buf : List Nat
deriving DecidableEq, Repr

/-- Body fill loop of `msg_gen`:
`for (i = 0; i < len; i++) msg->buf[i] = brahe_prng_next(&prng);`
(the store into `unsigned char` truncates the raw draw mod 256). -/
def gen_bytes : Nat → brahe_prng_state_t → List Nat × brahe_prng_state_t
  | 0, s => ([], s)
  | n + 1, s =>
    let (v, s1) := brahe_prng_next s
    let (rest, s2) := gen_bytes n s1
    (v % 256 :: rest, s2)

/-- `msg_gen(int len)`: a negative argument selects variable-length mode,
`len = brahe_prng_range(&prng, 1, -len)`; then the body is filled byte
by byte from the generator. -/
def msg_gen (len : Int) (s : brahe_prng_state_t) :
    msg × brahe_prng_state_t :=
  let (n, s1) :=
    if len < 0 then brahe_prng_range s 1 (-len).toNat else (len.toNat, s)
  let (body, s2) := gen_bytes n s1
  (⟨n, body⟩, s2)

/-- Diagnostic output events relevant to the fatal paths: an error line
(`pr_error`), the byte-level diff (`cmp_buffer`), and the statistics
summary line (`print_stats`). -/
inductive Event where
  | errorMsg
  | diffDump
  | statsLine
deriving DecidableEq, Repr

/-- Result of the transmit worker: bytes added to `tx_bytes`, whether it
hit a fatal `exit(-1)` path, and the diagnostics it emitted. -/
structure TxResult where
  txAdd : Nat
  fatal : Bool
  events : List Event
deriving DecidableEq, Repr

/-- `transmit_start`: one single `write(fd, msg->buf, msg->len)`.
A negative result is a fatal write error; otherwise `tx_bytes += res`,
and `res < msg->len` (a short write) is fatal.  There is no retry loop.
`writeRes` is the oracle for the `write(2)` return value. -/
def transmit_start (m : msg) (writeRes : Int) : TxResult :=
  if writeRes < 0 then ⟨0, true, [.errorMsg]⟩
  else
    let n := writeRes.toNat
    if n < m.len then ⟨n, true, [.errorMsg]⟩
    else ⟨n, false, []⟩

/-- One `read(2)` result: an error, or the chunk of bytes the transport
delivered into the buffer. -/
inductive ReadRes where
  | ok : List Nat → ReadRes
  | err : ReadRes
deriving DecidableEq, Repr

/-- Outcome of the receive loop. -/
inductive RxStatus where
  | done
  | readErr
  | starved
deriving DecidableEq, Repr

/-- Observables of the receive read loop: final status, the bytes placed
into `buf` this round (in offset order), the total added to `rx_bytes`,
and the list of `(offset, requested)` pairs of the issued reads, i.e.
the `read(fd, buf + avail, len - avail)` calls. -/
structure RxLoopOut where
  status : RxStatus
  data : List Nat
  rxAdd : Nat
  accesses : List (Nat × Nat)
deriving DecidableEq, Repr

/-- The read loop of `receive_start`:
`while (avail < len) { res = read(fd, buf + avail, len - avail); ... }`.
A negative result is a fatal read error; otherwise `avail += res;
rx_bytes += res`.  An exhausted oracle (`[]`) models a read that blocks
forever (`starved`). -/
def rx_loop (len : Nat) : List ReadRes → Nat → RxLoopOut
  | reads, avail =>
    if avail < len then
      match reads with
      | [] => ⟨.starved, [], 0, []⟩
      | .err :: _ => ⟨.readErr, [], 0, [(avail, len - avail)]⟩
      | .ok chunk :: rest =>
        let o := rx_loop len rest (avail + chunk.length)
        ⟨o.status, chunk ++ o.data, chunk.length + o.rxAdd,
          (avail, len - avail) :: o.accesses⟩
    else ⟨.done, [], 0, []⟩

/-- The `memcmp(buf, msg->buf, len)`-nonzero condition: the first `len`
bytes of the two buffers differ. -/
def memcmp_ne (b1 b2 : List Nat) (len : Nat) : Bool :=
  b1.take len != b2.take len

/-- Outcome of the receive worker. -/
inductive RxOutcome where
  | ok
  | fatalRead
  | fatalMismatch
  | starved
deriving DecidableEq, Repr

/-- Result of the receive worker: the truncation length it drew, the
generator state after its single draw, its outcome, bytes added to
`rx_bytes`, the buffer accesses of its read loop, and the diagnostics
it emitted. -/
structure RxResult where
  truncLen : Nat
  prngEnd : brahe_prng_state_t
  status : RxOutcome
  rxAdd : Nat
  accesses : List (Nat × Nat)
  events : List Event
deriving DecidableEq, Repr

/-- `receive_start`: draw `len = brahe_prng_range(&prng, 1, msg->len)`,
loop over short reads until `avail >= len`, then compare the first
`len` bytes of the buffer with the message via `memcmp`; on mismatch
print the error, the byte-level diff (`cmp_buffer`) and the statistics
(`print_stats`) and exit.  On a read error, print the error and exit
without statistics. -/
def receive_start (m : msg) (reads : List ReadRes)
    (s : brahe_prng_state_t) : RxResult :=
  let len := (brahe_prng_range s 1 m.len).1
  let s1 := (brahe_prng_range s 1 m.len).2
  let o := rx_loop len reads 0
  match o.status with
  | .readErr => ⟨len, s1, .fatalRead, o.rxAdd, o.accesses, [.errorMsg]⟩
  | .starved => ⟨len, s1, .starved, o.rxAdd, o.accesses, []⟩
  | .done =>
    if memcmp_ne o.data m.buf len then
      ⟨len, s1, .fatalMismatch, o.rxAdd, o.accesses,
        [.errorMsg, .diffDump, .statsLine]⟩
    else ⟨len, s1, .ok, o.rxAdd, o.accesses, []⟩

/-! ## Comparator / Reporter (`cmp_line`, `cmp_buffer`, `print_line`) -/

/-- One rendered output line of the comparator/reporter: a comparison
row (`cmp_line`'s hex+ASCII rendering, labelled by its byte offset),
the `"Expected:"` header, or a plain dump row (`print_line`). -/
inductive OutLine where
  | cmpRow (address : Nat) (row1 row2 : List Nat)
  | expectedHeader
  | dumpRow (address : Nat) (row : List Nat)
deriving DecidableEq, Repr

/-- The mismatch count returned by `cmp_line(address, buf1, buf2, len)`:
the number of positions `i < len` where the two rows differ (the
rendering flags exactly these positions). -/
def cmp_line (b1 b2 : List Nat) (len : Nat) : Nat :=
  (((b1.take len).zip (b2.take len)).filter fun p => p.1 != p.2).length

/-- The row loop of `cmp_buffer`:
`for (i = 0; i < len; i += 16)` render the comparison row at offset `i`
over `min(len - i, 16)` bytes; when `cmp_line` reports a nonzero count,
additionally render the `"Expected:"` header and the expected row. -/
def cmp_rows (b1 b2 : List Nat) (len i : Nat) : List OutLine :=
  if i < len then
    let l := min (len - i) 16
    let r1 := (b1.drop i).take l
    let r2 := (b2.drop i).take l
    (if cmp_line r1 r2 l = 0 then [.cmpRow i r1 r2]
     else [.cmpRow i r1 r2, .expectedHeader, .dumpRow i r2])
    ++ cmp_rows b1 b2 len (i + 16)
  else []
termination_by len - i
decreasing_by omega

/-- `cmp_buffer(buf1, buf2, len)`: the full rendered diff. -/
def cmp_buffer (b1 b2 : List Nat) (len : Nat) : List OutLine :=
  cmp_rows b1 b2 len 0

/-- Spec-side description of one rendered row `k` (rows of 16 bytes,
labelled by byte offset `16 * k`): a row with zero differences renders
once; a row with at least one difference additionally renders the
expected row beneath it. -/
def render_row (b1 b2 : List Nat) (len k : Nat) : List OutLine :=
  let i := 16 * k
  let l := min (len - i) 16
  let r1 := (b1.drop i).take l
  let r2 := (b2.drop i).take l
  if cmp_line r1 r2 l = 0 then [.cmpRow i r1 r2]
  else [.cmpRow i r1 r2, .expectedHeader, .dumpRow i r2]

/-- The sum, over all 16-byte rows, of the per-row differing-byte counts
returned by `cmp_line` — the overall mismatch count of the diff. -/
def row_diff_sum (b1 b2 : List Nat) (len : Nat) : Nat :=
  ((List.range ((len + 15) / 16)).map fun k =>
    cmp_line ((b1.drop (16 * k)).take (min (len - 16 * k) 16))
      ((b2.drop (16 * k)).take (min (len - 16 * k) 16))
      (min (len - 16 * k) 16)).sum

/-! ## Round coordinator (`main` loop) and whole-run model -/

/-- `signal_handler`: on an external interrupt, print the statistics and
`exit(-1)`. -/
def signal_handler : List Event × Int := ([.statsLine], -1)

/-- The per-round transport oracle: the result of the transmit worker's
single `write(2)`, and the receive worker's successive `read(2)`
results. -/
structure RoundIO where
  writeRes : Int
  reads : List ReadRes
deriving Repr

/-- Process-wide mutable state: the PRNG and the statistics counters
`tx_bytes`, `rx_bytes`, `msgs`. -/
structure RunSt where
  prng : brahe_prng_state_t
  tx : Nat
  rx : Nat
  msgs : Nat
deriving DecidableEq, Repr

/-- Outcome of one round of the coordinator loop: both workers finished
normally (with the message and truncation length of the round), some
worker hit a fatal `exit(-1)`, or the receive worker blocks forever. -/
inductive RoundOut where
  | ok (st : RunSt) (m : msg) (truncLen : Nat)
  | fatal (st : RunSt)
  | hang
deriving Repr

/-- One round of the `main` loop: generate the message with
`msg_gen(-opt_msglen)`, run the receive worker (which draws the
truncation length) and the transmit worker, accumulate the statistics,
and report a fatal outcome if either worker exited. -/
def do_round (msglen : Nat) (io : RoundIO) (st : RunSt) : RoundOut :=
  let m := (msg_gen (-(msglen : Int)) st.prng).1
  let s1 := (msg_gen (-(msglen : Int)) st.prng).2
  let r := receive_start m io.reads s1
  let t := transmit_start m io.writeRes
  let st' : RunSt := ⟨r.prngEnd, st.tx + t.txAdd, st.rx + r.rxAdd, st.msgs⟩
  if r.status = .fatalRead ∨ r.status = .fatalMismatch ∨ t.fatal then
    .fatal st'
  else if r.status = .starved then .hang
  else .ok st' m r.truncLen

/-- Result of a whole run: the process exit code with the final state
and the per-round trace `(message length, message body, truncLen)` of
the completed rounds, or no termination. -/
inductive RunOut where
  | exit (code : Int) (st : RunSt) (trace : List (Nat × List Nat × Nat))
  | hang
deriving Repr

/-- The bounded `main` loop (`opt_nmsgs > 0`): run `n` rounds; a fatal
round gives `exit(-1)`; after the configured count, `print_stats` and
`exit(0)`.  The `msgs` counter is the loop variable, incremented after
each completed round. -/
def run_rounds (msglen : Nat) : Nat → List RoundIO → RunSt → RunOut
  | 0, _, st => .exit 0 st []
  | _ + 1, [], _ => .hang
  | n + 1, io :: ios, st =>
    match do_round msglen io st with
    | .fatal st' => .exit (-1) st' []
    | .hang => .hang
    | .ok st' m tl =>
      match run_rounds msglen n ios { st' with msgs := st'.msgs + 1 } with
      | .exit c st'' tr => .exit c st'' ((m.len, m.buf, tl) :: tr)
      | .hang => .hang

/-- The unbounded `main` loop (`opt_nmsgs == 0`): rounds repeat forever;
the process can only exit through a fatal round. -/
def run_unbounded (msglen : Nat) : List RoundIO → RunSt → RunOut
  | [], _ => .hang
  | io :: ios, st =>
    match do_round msglen io st with
    | .fatal st' => .exit (-1) st' []
    | .hang => .hang
    | .ok st' m tl =>
      match run_unbounded msglen ios { st' with msgs := st'.msgs + 1 } with
      | .exit c st'' tr => .exit c st'' ((m.len, m.buf, tl) :: tr)
      | .hang => .hang

/-- The core of `main` after option parsing: seed the generator with
`brahe_prng_init` and run the round loop (`opt_nmsgs == 0` loops
unboundedly). -/
def fifotest_main (seed msglen nmsgs : Nat) (ios : List RoundIO) : RunOut :=
  let st : RunSt := ⟨brahe_prng_init seed, 0, 0, 0⟩
  if nmsgs = 0 then run_unbounded msglen ios st
  else run_rounds msglen nmsgs ios st

/-- The pure draw trace: the sequence of (message length, message body,
truncation length) triples determined by the seed and configuration
alone — message draws, then the truncation draw, round after round. -/
def draw_trace (msglen : Nat) : Nat → brahe_prng_state_t →
    List (Nat × List Nat × Nat)
  | 0, _ => []
  | n + 1, s =>
    let m := (msg_gen (-(msglen : Int)) s).1
    let s1 := (msg_gen (-(msglen : Int)) s).2
    let tl := (brahe_prng_range s1 1 m.len).1
    let s2 := (brahe_prng_range s1 1 m.len).2
    (m.len, m.buf, tl) :: draw_trace msglen n s2

/-! ## Transport-contract well-formedness of the oracles

POSIX guarantees `read`/`write` never transfer more than requested;
these decidable predicates state exactly that for the oracles actually
consumed by a run. -/

/-- Each `read` chunk consumed by the loop is no longer than the
requested `len - avail` bytes. -/
def reads_wf (len : Nat) : List ReadRes → Nat → Bool
  | [], _ => true
  | .err :: _, _ => true
  | .ok chunk :: rest, avail =>
    if avail < len then
      decide (chunk.length ≤ len - avail) && reads_wf len rest (avail + chunk.length)
    else true

/-- Transport contract for a whole run: each round's `write` result is
at most the message length, and its read chunks respect the requested
sizes (the PRNG is threaded exactly as the run threads it). -/
def ios_wf (msglen : Nat) : List RoundIO → brahe_prng_state_t → Bool
  | [], _ => true
  | io :: ios, s =>
    let m := (msg_gen (-(msglen : Int)) s).1
    let s1 := (msg_gen (-(msglen : Int)) s).2
    let len := (brahe_prng_range s1 1 m.len).1
    let s2 := (brahe_prng_range s1 1 m.len).2
    decide (io.writeRes ≤ (m.len : Int)) && reads_wf len io.reads 0 &&
      ios_wf msglen ios s2

/-- All `n` configured rounds complete with no fatal condition. -/
def rounds_ok (msglen : Nat) : Nat → List RoundIO → RunSt → Bool
  | 0, _, _ => true
  | _ + 1, [], _ => false
  | n + 1, io :: ios, st =>
    match do_round msglen io st with
    | .ok st' _ _ => rounds_ok msglen n ios { st' with msgs := st'.msgs + 1 }
    | _ => false

/-! ## Basic lemmas about the generator and message builder -/

theorem brahe_prng_range_spec (s : brahe_prng_state_t) (lo hi : Nat)
    (h : lo ≤ hi) :
    lo ≤ (brahe_prng_range s lo hi).1 ∧ (brahe_prng_range s lo hi).1 ≤ hi ∧
    (brahe_prng_range s lo hi).2 = ⟨s.seed, s.count + 1⟩ := by
  have hpos : 0 < hi + 1 - lo := by omega
  have hmod := Nat.mod_lt (brahe_raw s) hpos
  refine ⟨?_, ?_, rfl⟩
  · show lo ≤ lo + brahe_raw s % (hi + 1 - lo)
    omega
  · show lo + brahe_raw s % (hi + 1 - lo) ≤ hi
    omega

/-- The byte stream of the generator: the raw draw at stream position
`j` for a given seed, truncated to a byte by the `unsigned char`
store. -/
def byte_stream (seed j : Nat) : Nat := brahe_raw ⟨seed, j⟩ % 256

theorem gen_bytes_eq (n : Nat) (s : brahe_prng_state_t) :
    gen_bytes n s =
      ((List.range' s.count n).map (byte_stream s.seed),
        ⟨s.seed, s.count + n⟩) := by
  induction n generalizing s with
  | zero => rfl
  | succ k ih =>
    show (brahe_raw s % 256 :: (gen_bytes k ⟨s.seed, s.count + 1⟩).1,
        (gen_bytes k ⟨s.seed, s.count + 1⟩).2) = _
    rw [ih ⟨s.seed, s.count + 1⟩]
    rw [List.range'_succ, List.map_cons]
    have hc : s.count + 1 + k = s.count + (k + 1) := by omega
    rw [hc]
    rfl

theorem gen_bytes_length (n : Nat) (s : brahe_prng_state_t) :
    (gen_bytes n s).1.length = n := by
  rw [gen_bytes_eq]
  simp

/-- Unfolding of `msg_gen` in variable-length mode. -/
theorem msg_gen_neg_eq (N : Nat) (hN : 1 ≤ N) (s : brahe_prng_state_t) :
    msg_gen (-(N : Int)) s =
      (⟨(brahe_prng_range s 1 N).1,
        (gen_bytes (brahe_prng_range s 1 N).1 (brahe_prng_range s 1 N).2).1⟩,
       (gen_bytes (brahe_prng_range s 1 N).1 (brahe_prng_range s 1 N).2).2) := by
  have hneg : (-(N : Int)) < 0 := by omega
  have htn : (-(-(N : Int))).toNat = N := by omega
  simp only [msg_gen, if_pos hneg, htn]

theorem msg_gen_len_bounds (N : Nat) (s : brahe_prng_state_t)
    (hN : 1 ≤ N) :
    1 ≤ (msg_gen (-(N : Int)) s).1.len ∧
    (msg_gen (-(N : Int)) s).1.len ≤ N := by
  obtain ⟨h1, h2, h3⟩ := brahe_prng_range_spec s 1 N hN
  rw [msg_gen_neg_eq N hN s]
  exact ⟨h1, h2⟩

/-- C6: in variable-length mode with maximum `N ≥ 1`, the message length
is `nextRange(1, N)` (so between 1 and `N`), the body is exactly the
byte stream of the generator at positions `count+1, …, count+length`
(each byte one successive `nextByte` draw, in order), and the generator
is advanced by exactly `1 + length` draws. -/
theorem msg_gen_variable_mode (N : Nat) (s : brahe_prng_state_t)
    (hN : 1 ≤ N) :
    (msg_gen (-(N : Int)) s).1.len = (brahe_prng_range s 1 N).1 ∧
    1 ≤ (msg_gen (-(N : Int)) s).1.len ∧
    (msg_gen (-(N : Int)) s).1.len ≤ N ∧
    (msg_gen (-(N : Int)) s).1.buf =
      (List.range' (s.count + 1) (msg_gen (-(N : Int)) s).1.len).map
        (byte_stream s.seed) ∧
    (msg_gen (-(N : Int)) s).2 =
      ⟨s.seed, s.count + 1 + (msg_gen (-(N : Int)) s).1.len⟩ := by
  obtain ⟨h1, h2, h3⟩ := brahe_prng_range_spec s 1 N hN
  rw [msg_gen_neg_eq N hN s, h3, gen_bytes_eq]
  refine ⟨rfl, h1, h2, ?_, rfl⟩
  dsimp only

/-- C6 witness: concrete evaluation at `N = 4`, seed 42. -/
theorem msg_gen_variable_mode_witness :
    (msg_gen (-(4 : Int)) (brahe_prng_init 42)).1.len =
      (brahe_prng_range (brahe_prng_init 42) 1 4).1 ∧
    1 ≤ (msg_gen (-(4 : Int)) (brahe_prng_init 42)).1.len ∧
    (msg_gen (-(4 : Int)) (brahe_prng_init 42)).1.len ≤ 4 ∧
    (msg_gen (-(4 : Int)) (brahe_prng_init 42)).1.buf =
      (List.range' ((brahe_prng_init 42).count + 1)
        (msg_gen (-(4 : Int)) (brahe_prng_init 42)).1.len).map
        (byte_stream (brahe_prng_init 42).seed) ∧
    (msg_gen (-(4 : Int)) (brahe_prng_init 42)).2 =
      ⟨(brahe_prng_init 42).seed, (brahe_prng_init 42).count + 1 +
        (msg_gen (-(4 : Int)) (brahe_prng_init 42)).1.len⟩ :=
  msg_gen_variable_mode 4 (brahe_prng_init 42) (by decide)

/-! ## C1: the transmit worker does not loop over short writes -/

/-- C1 counterexample: a message of length 2 with a transport accepting
1 byte at a time (short write results `1, 1` summing to the message
length).  The claim says the Transmit Worker loops over short writes
and completes successfully; in fact the single `write` returns 1 and
the worker hits the fatal short-write path, having recorded only 1
transmitted byte instead of transmitting all 2. -/
theorem transmit_short_write_aborts :
    (transmit_start ⟨2, [0, 0]⟩ 1).fatal = true ∧
    (transmit_start ⟨2, [0, 0]⟩ 1).txAdd = 1 := by decide

/-- C1 amended: the Transmit Worker issues exactly one `write` of the
whole message body; given a write result `0 ≤ w ≤ message.length`, it
completes successfully if and only if that single write transferred
the whole message, in which case it records exactly `message.length`
transmitted bytes; any short write is fatal, with no retry loop. -/
theorem transmit_single_write_iff_full (m : msg) (w : Int) (h0 : 0 ≤ w)
    (hle : w ≤ (m.len : Int)) :
    ((transmit_start m w).fatal = false ↔ w = (m.len : Int)) ∧
    ((transmit_start m w).fatal = false →
      (transmit_start m w).txAdd = m.len) := by
  have hw0 : ¬ w < 0 := by omega
  by_cases hlt : w.toNat < m.len
  · have hne : w ≠ (m.len : Int) := by omega
    simp only [transmit_start, if_neg hw0, if_pos hlt]
    constructor
    · exact iff_of_false (by simp) hne
    · intro h
      simp at h
  · have heq : w = (m.len : Int) := by omega
    simp only [transmit_start, if_neg hw0, if_neg hlt]
    exact ⟨iff_of_true trivial heq, fun _ => by omega⟩

/-- C1 amended witness: a full write of a 2-byte message succeeds. -/
theorem transmit_single_write_iff_full_witness :
    ((transmit_start ⟨2, [0, 0]⟩ 2).fatal = false ↔
      (2 : Int) = ((⟨2, [0, 0]⟩ : msg).len : Int)) ∧
    ((transmit_start ⟨2, [0, 0]⟩ 2).fatal = false →
      (transmit_start ⟨2, [0, 0]⟩ 2).txAdd = (⟨2, [0, 0]⟩ : msg).len) :=
  transmit_single_write_iff_full ⟨2, [0, 0]⟩ 2 (by decide) (by decide)

/-! ## C2: which fatal paths emit the statistics line -/

/-- C2 counterexample: a fatal write error terminates the process after
emitting only the error message — the summary statistics line is not
emitted, contradicting the claim that every fatal condition emits the
statistics before terminating. -/
theorem write_error_skips_stats :
    (transmit_start ⟨1, [0]⟩ (-1)).fatal = true ∧
    Event.statsLine ∉ (transmit_start ⟨1, [0]⟩ (-1)).events := by decide

/-- C2 amended: a data-mismatch fatal condition terminates only after
emitting the error message, the full byte-level diff, and the summary
statistics line; transport read-error, write-error and short-write
fatal conditions terminate after emitting only the error message,
without the statistics line. -/
theorem fatal_diagnostics_by_kind (m : msg) (reads : List ReadRes)
    (s : brahe_prng_state_t) (m' : msg) (w : Int) :
    ((receive_start m reads s).status = .fatalMismatch →
      (receive_start m reads s).events =
        [.errorMsg, .diffDump, .statsLine]) ∧
    ((receive_start m reads s).status = .fatalRead →
      (receive_start m reads s).events = [.errorMsg]) ∧
    ((transmit_start m' w).fatal = true →
      (transmit_start m' w).events = [.errorMsg]) := by
  refine ⟨?_, ?_, ?_⟩
  · intro h
    rcases hst : (rx_loop (brahe_prng_range s 1 m.len).1 reads 0).status
      with _ | _ | _
    · by_cases hm : memcmp_ne
        (rx_loop (brahe_prng_range s 1 m.len).1 reads 0).data m.buf
        (brahe_prng_range s 1 m.len).1 = true
      · simp [receive_start, hst, hm]
      · simp [receive_start, hst, hm] at h
    · simp [receive_start, hst] at h
    · simp [receive_start, hst] at h
  · intro h
    rcases hst : (rx_loop (brahe_prng_range s 1 m.len).1 reads 0).status
      with _ | _ | _
    · by_cases hm : memcmp_ne
        (rx_loop (brahe_prng_range s 1 m.len).1 reads 0).data m.buf
        (brahe_prng_range s 1 m.len).1 = true
      · simp [receive_start, hst, hm] at h
      · simp [receive_start, hst, hm] at h
    · simp [receive_start, hst]
    · simp [receive_start, hst] at h
  · intro h
    by_cases hw : w < 0
    · simp [transmit_start, hw]
    · by_cases hlt : w.toNat < m'.len
      · simp [transmit_start, hw, hlt]
      · simp only [transmit_start, if_neg hw, if_neg hlt] at h
        simp at h

/-- C2 amended witness: a concrete mismatch round, a concrete
read-error round, and a concrete write-error call exercising the three
conjuncts. -/
theorem fatal_diagnostics_by_kind_witness :
    (receive_start ⟨1, [0]⟩ [.ok [1]] ⟨0, 0⟩).events =
      [.errorMsg, .diffDump, .statsLine] ∧
    (receive_start ⟨1, [0]⟩ [.err] ⟨0, 0⟩).events = [.errorMsg] ∧
    (transmit_start ⟨1, [0]⟩ (-1)).events = [.errorMsg] :=
  ⟨(fatal_diagnostics_by_kind ⟨1, [0]⟩ [.ok [1]] ⟨0, 0⟩ ⟨1, [0]⟩ 0).1
      (by decide),
   (fatal_diagnostics_by_kind ⟨1, [0]⟩ [.err] ⟨0, 0⟩ ⟨1, [0]⟩ 0).2.1
      (by decide),
   (fatal_diagnostics_by_kind ⟨1, [0]⟩ [.err] ⟨0, 0⟩ ⟨1, [0]⟩ (-1)).2.2
      (by decide)⟩

/-! ## Lemmas about the receive read loop -/

theorem rx_loop_stop (len : Nat) (reads : List ReadRes) (avail : Nat)
    (h : ¬ avail < len) : rx_loop len reads avail = ⟨.done, [], 0, []⟩ := by
  rw [rx_loop.eq_def]
  dsimp only
  rw [if_neg h]

theorem rx_loop_nil (len avail : Nat) (h : avail < len) :
    rx_loop len [] avail = ⟨.starved, [], 0, []⟩ := by
  rw [rx_loop.eq_def]
  dsimp only
  rw [if_pos h]

theorem rx_loop_err (len avail : Nat) (rest : List ReadRes) (h : avail < len) :
    rx_loop len (.err :: rest) avail =
      ⟨.readErr, [], 0, [(avail, len - avail)]⟩ := by
  rw [rx_loop.eq_def]
  dsimp only
  rw [if_pos h]

theorem rx_loop_ok (len avail : Nat) (chunk : List Nat)
    (rest : List ReadRes) (h : avail < len) :
    rx_loop len (.ok chunk :: rest) avail =
      ⟨(rx_loop len rest (avail + chunk.length)).status,
        chunk ++ (rx_loop len rest (avail + chunk.length)).data,
        chunk.length + (rx_loop len rest (avail + chunk.length)).rxAdd,
        (avail, len - avail) ::
          (rx_loop len rest (avail + chunk.length)).accesses⟩ := by
  rw [rx_loop.eq_def]
  dsimp only
  rw [if_pos h]

/-- Every read issued by the loop requests exactly the remainder
`len - avail` at the current offset, and only while `avail < len`. -/
theorem rx_loop_accesses (len : Nat) (reads : List ReadRes) (avail : Nat) :
    ∀ a ∈ (rx_loop len reads avail).accesses,
      avail ≤ a.1 ∧ a.1 < len ∧ a.2 = len - a.1 := by
  induction reads generalizing avail with
  | nil =>
    intro a ha
    by_cases h : avail < len
    · rw [rx_loop_nil len avail h] at ha
      simp at ha
    · rw [rx_loop_stop len [] avail h] at ha
      simp at ha
  | cons r rest ih =>
    intro a ha
    by_cases h : avail < len
    · cases r with
      | err =>
        rw [rx_loop_err len avail rest h] at ha
        simp at ha
        subst ha
        exact ⟨Nat.le_refl _, h, rfl⟩
      | ok chunk =>
        rw [rx_loop_ok len avail chunk rest h] at ha
        simp only [List.mem_cons] at ha
        rcases ha with ha | ha
        · subst ha
          exact ⟨Nat.le_refl _, h, rfl⟩
        · obtain ⟨h1, h2, h3⟩ := ih (avail + chunk.length) a ha
          exact ⟨by omega, h2, h3⟩
    · rw [rx_loop_stop len _ avail h] at ha
      simp at ha

/-- When the transport never delivers more than requested and the loop
finishes, it has accumulated exactly the remaining `len - avail`
bytes. -/
theorem rx_loop_done_rxAdd (len : Nat) (reads : List ReadRes)
    (avail : Nat) (hwf : reads_wf len reads avail = true)
    (hle : avail ≤ len)
    (hdone : (rx_loop len reads avail).status = .done) :
    (rx_loop len reads avail).rxAdd = len - avail := by
  induction reads generalizing avail with
  | nil =>
    by_cases h : avail < len
    · rw [rx_loop_nil len avail h] at hdone
      simp at hdone
    · rw [rx_loop_stop len [] avail h]
      show (0 : Nat) = len - avail
      omega
  | cons r rest ih =>
    by_cases h : avail < len
    · cases r with
      | err =>
        rw [rx_loop_err len avail rest h] at hdone
        simp at hdone
      | ok chunk =>
        simp only [reads_wf, if_pos h, Bool.and_eq_true,
          decide_eq_true_eq] at hwf
        obtain ⟨hchunk, hwf'⟩ := hwf
        rw [rx_loop_ok len avail chunk rest h] at hdone ⊢
        simp only at hdone ⊢
        have hrec := ih (avail + chunk.length) hwf' (by omega) hdone
        omega
    · rw [rx_loop_stop len _ avail h]
      show (0 : Nat) = len - avail
      omega

/-- The fields of the receive worker's result that do not depend on the
comparison outcome: the truncation draw, the generator state after its
single draw, and the read loop's byte count and accesses. -/
theorem receive_start_fields (m : msg) (reads : List ReadRes)
    (s : brahe_prng_state_t) :
    (receive_start m reads s).truncLen = (brahe_prng_range s 1 m.len).1 ∧
    (receive_start m reads s).prngEnd = (brahe_prng_range s 1 m.len).2 ∧
    (receive_start m reads s).rxAdd =
      (rx_loop (brahe_prng_range s 1 m.len).1 reads 0).rxAdd ∧
    (receive_start m reads s).accesses =
      (rx_loop (brahe_prng_range s 1 m.len).1 reads 0).accesses := by
  rcases hst : (rx_loop (brahe_prng_range s 1 m.len).1 reads 0).status
    with _ | _ | _
  · by_cases hm : memcmp_ne
      (rx_loop (brahe_prng_range s 1 m.len).1 reads 0).data m.buf
      (brahe_prng_range s 1 m.len).1 = true
    · simp [receive_start, hst, hm]
    · simp [receive_start, hst, hm]
  · simp [receive_start, hst]
  · simp [receive_start, hst]

/-- C3: per round the Receive Worker draws
`truncLen = nextRange(1, message.length)` exactly once (the generator
advances by exactly one draw), `1 ≤ truncLen ≤ message.length`; when
the transport respects requested sizes and the loop completes, it has
accumulated exactly `truncLen` bytes before comparing; and every issued
read requests exactly the `truncLen - avail` remainder at an offset
below `truncLen` (so it never attempts to read more than `truncLen`
bytes in total). -/
theorem receive_trunc_bound_and_accumulation (m : msg)
    (reads : List ReadRes) (s : brahe_prng_state_t) (a : Nat × Nat)
    (hm : 1 ≤ m.len)
    (hwf : reads_wf (brahe_prng_range s 1 m.len).1 reads 0 = true)
    (hdone :
      (rx_loop (brahe_prng_range s 1 m.len).1 reads 0).status = .done) :
    (receive_start m reads s).truncLen = (brahe_prng_range s 1 m.len).1 ∧
    1 ≤ (receive_start m reads s).truncLen ∧
    (receive_start m reads s).truncLen ≤ m.len ∧
    (receive_start m reads s).prngEnd = ⟨s.seed, s.count + 1⟩ ∧
    (receive_start m reads s).rxAdd = (receive_start m reads s).truncLen ∧
    (a ∈ (receive_start m reads s).accesses →
      a.2 = (receive_start m reads s).truncLen - a.1 ∧
      a.1 < (receive_start m reads s).truncLen) := by
  obtain ⟨hT, hP, hR, hA⟩ := receive_start_fields m reads s
  obtain ⟨hlo, hhi, hs⟩ := brahe_prng_range_spec s 1 m.len hm
  refine ⟨hT, ?_, ?_, ?_, ?_, ?_⟩
  · rw [hT]
    exact hlo
  · rw [hT]
    exact hhi
  · rw [hP]
    exact hs
  · rw [hR, hT]
    have := rx_loop_done_rxAdd (brahe_prng_range s 1 m.len).1 reads 0 hwf
      (by omega) hdone
    omega
  · intro ha
    rw [hA] at ha
    obtain ⟨h1, h2, h3⟩ :=
      rx_loop_accesses (brahe_prng_range s 1 m.len).1 reads 0 a ha
    rw [hT]
    exact ⟨h3, h2⟩

/-- C3 witness: a 1-byte message received in one full read. -/
theorem receive_trunc_bound_and_accumulation_witness :
    (receive_start ⟨1, [0]⟩ [.ok [0]] ⟨0, 0⟩).truncLen =
      (brahe_prng_range ⟨0, 0⟩ 1 (⟨1, [0]⟩ : msg).len).1 ∧
    1 ≤ (receive_start ⟨1, [0]⟩ [.ok [0]] ⟨0, 0⟩).truncLen ∧
    (receive_start ⟨1, [0]⟩ [.ok [0]] ⟨0, 0⟩).truncLen ≤
      (⟨1, [0]⟩ : msg).len ∧
    (receive_start ⟨1, [0]⟩ [.ok [0]] ⟨0, 0⟩).prngEnd =
      ⟨(⟨0, 0⟩ : brahe_prng_state_t).seed,
        (⟨0, 0⟩ : brahe_prng_state_t).count + 1⟩ ∧
    (receive_start ⟨1, [0]⟩ [.ok [0]] ⟨0, 0⟩).rxAdd =
      (receive_start ⟨1, [0]⟩ [.ok [0]] ⟨0, 0⟩).truncLen ∧
    (((0, 1) : Nat × Nat) ∈ (receive_start ⟨1, [0]⟩ [.ok [0]] ⟨0, 0⟩).accesses →
      ((0, 1) : Nat × Nat).2 =
        (receive_start ⟨1, [0]⟩ [.ok [0]] ⟨0, 0⟩).truncLen -
          ((0, 1) : Nat × Nat).1 ∧
      ((0, 1) : Nat × Nat).1 <
        (receive_start ⟨1, [0]⟩ [.ok [0]] ⟨0, 0⟩).truncLen) :=
  receive_trunc_bound_and_accumulation ⟨1, [0]⟩ [.ok [0]] ⟨0, 0⟩ (0, 1)
    (by decide) (by decide) (by decide)

/-- C10: with the configured maximum message length within the 4096-byte
ceiling of the receive buffer, every read the Receive Worker issues
stays inside the buffer: each access writes at an offset below 4096
with a requested size that keeps it within the 4096-byte bound,
because `truncLen ≤ message.length ≤ 4096`. -/
theorem receive_buffer_in_bounds (msglen : Nat) (s : brahe_prng_state_t)
    (reads : List ReadRes) (a : Nat × Nat) (h1 : 1 ≤ msglen)
    (h2 : msglen ≤ 4096)
    (ha : a ∈ (receive_start (msg_gen (-(msglen : Int)) s).1 reads
        (msg_gen (-(msglen : Int)) s).2).accesses) :
    a.1 < 4096 ∧ a.1 + a.2 ≤ 4096 := by
  obtain ⟨hlen2, hlen3⟩ := msg_gen_len_bounds msglen s h1
  obtain ⟨hT, hP, hR, hA⟩ := receive_start_fields
    (msg_gen (-(msglen : Int)) s).1 reads (msg_gen (-(msglen : Int)) s).2
  rw [hA] at ha
  obtain ⟨ha1, ha2, ha3⟩ := rx_loop_accesses _ reads 0 a ha
  obtain ⟨hlo, hhi, _⟩ := brahe_prng_range_spec
    (msg_gen (-(msglen : Int)) s).2 1 (msg_gen (-(msglen : Int)) s).1.len
    hlen2
  constructor
  · omega
  · omega

/-- C10 witness: maximum length 4, seed 42, a one-chunk read. -/
theorem receive_buffer_in_bounds_witness :
    ((0, 1) : Nat × Nat).1 < 4096 ∧
    ((0, 1) : Nat × Nat).1 + ((0, 1) : Nat × Nat).2 ≤ 4096 :=
  receive_buffer_in_bounds 4 (brahe_prng_init 42) [.ok [96]] (0, 1)
    (by decide) (by decide) (by decide)

/-! ## Comparator lemmas -/

theorem cmp_line_cons (a b : Nat) (x y : List Nat) (l : Nat) :
    cmp_line (a :: x) (b :: y) (l + 1) =
      (if a != b then 1 else 0) + cmp_line x y l := by
  by_cases h : (a != b) = true
  · simp [cmp_line, List.filter_cons, h]
    omega
  · simp [cmp_line, List.filter_cons, h]

/-- The count returned for the row at byte offset `i` over `l` bytes is
exactly the number of offsets `j ∈ [i, i + l)` where the buffers
differ. -/
theorem cmp_line_slice_count (b1 b2 : List Nat) :
    ∀ (l i : Nat), i + l ≤ b1.length → i + l ≤ b2.length →
    cmp_line ((b1.drop i).take l) ((b2.drop i).take l) l =
      ((List.range' i l).filter
        fun j => b1.getD j 0 != b2.getD j 0).length := by
  intro l
  induction l with
  | zero =>
    intro i h1 h2
    simp [cmp_line]
  | succ l ih =>
    intro i h1 h2
    have hi1 : i < b1.length := by omega
    have hi2 : i < b2.length := by omega
    rw [List.drop_eq_getElem_cons hi1, List.drop_eq_getElem_cons hi2,
      List.take_succ_cons, List.take_succ_cons, cmp_line_cons,
      ih (i + 1) (by omega) (by omega), List.range'_succ, List.filter_cons]
    rw [List.getD_eq_getElem b1 0 hi1, List.getD_eq_getElem b2 0 hi2]
    by_cases h : (b1[i] != b2[i]) = true
    · simp [h]
      omega
    · simp [h]

/-- The row loop of `cmp_buffer`, started at row `k`, renders exactly
the remaining rows in order. -/
theorem cmp_rows_eq_flatMap (b1 b2 : List Nat) (len : Nat) :
    ∀ (d k : Nat), (len + 15) / 16 ≤ k + d →
    cmp_rows b1 b2 len (16 * k) =
      (List.range' k ((len + 15) / 16 - k)).flatMap (render_row b1 b2 len) := by
  intro d
  induction d with
  | zero =>
    intro k hk
    have h16 : ¬ 16 * k < len := by omega
    have hz : (len + 15) / 16 - k = 0 := by omega
    rw [cmp_rows.eq_def, if_neg h16, hz]
    simp
  | succ d ih =>
    intro k hk
    by_cases hkr : (len + 15) / 16 ≤ k
    · have h16 : ¬ 16 * k < len := by omega
      have hz : (len + 15) / 16 - k = 0 := by omega
      rw [cmp_rows.eq_def, if_neg h16, hz]
      simp
    · have h16 : 16 * k < len := by omega
      rw [cmp_rows.eq_def, if_pos h16]
      have h1616 : 16 * k + 16 = 16 * (k + 1) := by omega
      rw [h1616, ih (k + 1) (by omega)]
      have hsub : (len + 15) / 16 - k = ((len + 15) / 16 - (k + 1)) + 1 := by
        omega
      rw [hsub, List.range'_succ, List.flatMap_cons]
      rfl

/-- Summing a per-16-byte-row count over all rows equals the count over
the whole offset range `[16k, len)`. -/
theorem row_filter_sum (P : Nat → Bool) (len : Nat) :
    ∀ (d k : Nat), (len + 15) / 16 ≤ k + d →
    ((List.range' k ((len + 15) / 16 - k)).map
      (fun r => ((List.range' (16 * r) (min (len - 16 * r) 16)).filter
        P).length)).sum =
      ((List.range' (16 * k) (len - 16 * k)).filter P).length := by
  intro d
  induction d with
  | zero =>
    intro k hk
    have hz : (len + 15) / 16 - k = 0 := by omega
    have hz2 : len - 16 * k = 0 := by omega
    rw [hz, hz2]
    simp
  | succ d ih =>
    intro k hk
    by_cases hkr : (len + 15) / 16 ≤ k
    · have hz : (len + 15) / 16 - k = 0 := by omega
      have hz2 : len - 16 * k = 0 := by omega
      rw [hz, hz2]
      simp
    · have h16 : 16 * k < len := by omega
      have hsub : (len + 15) / 16 - k = ((len + 15) / 16 - (k + 1)) + 1 := by
        omega
      rw [hsub, List.range'_succ, List.map_cons, List.sum_cons,
        ih (k + 1) (by omega)]
      by_cases hbig : 16 ≤ len - 16 * k
      · have hmin : min (len - 16 * k) 16 = 16 := by omega
        have heq : len - 16 * k = (len - 16 * (k + 1)) + 16 := by omega
        rw [hmin, heq, ← List.range'_append_1 (16 * k) 16 (len - 16 * (k + 1)),
          List.filter_append, List.length_append]
        have h1616 : 16 * k + 16 = 16 * (k + 1) := by omega
        rw [h1616]
      · have hmin : min (len - 16 * k) 16 = len - 16 * k := by omega
        have hz : len - 16 * (k + 1) = 0 := by omega
        rw [hmin, hz]
        simp

theorem take_eq_iff_getD (b1 b2 : List Nat) (len : Nat)
    (h1 : len ≤ b1.length) (h2 : len ≤ b2.length) :
    (b1.take len = b2.take len ↔
      ∀ j, j < len → b1.getD j 0 = b2.getD j 0) := by
  constructor
  · intro h j hj
    have hj1 : j < b1.length := by omega
    have hj2 : j < b2.length := by omega
    rw [List.getD_eq_getElem b1 0 hj1, List.getD_eq_getElem b2 0 hj2]
    have ht1 : j < (b1.take len).length := by
      simp
      omega
    have e := List.getElem_of_eq h ht1
    simpa using e
  · intro h
    apply List.ext_getElem
    · simp
      omega
    · intro i hi1 hi2
      simp only [List.getElem_take]
      have hi : i < len := by
        simp at hi1
        omega
      have hg := h i hi
      rwa [List.getD_eq_getElem b1 0 (by omega),
        List.getD_eq_getElem b2 0 (by omega)] at hg

/-- The total of the per-row mismatch counts equals the number of
differing offsets below `len`. -/
theorem row_diff_sum_eq (b1 b2 : List Nat) (len : Nat)
    (h1 : len ≤ b1.length) (h2 : len ≤ b2.length) :
    row_diff_sum b1 b2 len =
      ((List.range' 0 len).filter
        fun j => b1.getD j 0 != b2.getD j 0).length := by
  unfold row_diff_sum
  rw [List.range_eq_range']
  have hmap : (List.range' 0 ((len + 15) / 16)).map
      (fun k => cmp_line ((b1.drop (16 * k)).take (min (len - 16 * k) 16))
        ((b2.drop (16 * k)).take (min (len - 16 * k) 16))
        (min (len - 16 * k) 16)) =
      (List.range' 0 ((len + 15) / 16)).map
      (fun r => ((List.range' (16 * r) (min (len - 16 * r) 16)).filter
        fun j => b1.getD j 0 != b2.getD j 0).length) := by
    apply List.map_congr_left
    intro k hk
    simp only [List.mem_range'_1] at hk
    exact cmp_line_slice_count b1 b2 (min (len - 16 * k) 16) (16 * k)
      (by omega) (by omega)
  rw [hmap]
  have h := row_filter_sum (fun j => b1.getD j 0 != b2.getD j 0) len
    ((len + 15) / 16) 0 (by omega)
  simpa using h

/-- C7: the Diff renderer processes the two buffers in 16-byte rows
labelled by their byte offset (`render_row` at row `k` covers offsets
from `16k`): a row with zero differences renders once, a row with at
least one differing byte additionally renders the expected row beneath
it; and the per-row return value is the exact count of differing bytes
in that row. -/
theorem cmp_buffer_row_rendering (b1 b2 : List Nat) (len k : Nat)
    (h1 : len ≤ b1.length) (h2 : len ≤ b2.length)
    (hk : k < (len + 15) / 16) :
    cmp_buffer b1 b2 len =
      (List.range ((len + 15) / 16)).flatMap (render_row b1 b2 len) ∧
    cmp_line ((b1.drop (16 * k)).take (min (len - 16 * k) 16))
        ((b2.drop (16 * k)).take (min (len - 16 * k) 16))
        (min (len - 16 * k) 16) =
      ((List.range' (16 * k) (min (len - 16 * k) 16)).filter
        fun j => b1.getD j 0 != b2.getD j 0).length := by
  constructor
  · unfold cmp_buffer
    have h := cmp_rows_eq_flatMap b1 b2 len ((len + 15) / 16) 0 (by omega)
    rw [List.range_eq_range']
    simpa using h
  · exact cmp_line_slice_count b1 b2 (min (len - 16 * k) 16) (16 * k)
      (by omega) (by omega)

/-- C7 witness: 3-byte buffers differing at offset 1, row 0. -/
theorem cmp_buffer_row_rendering_witness :
    cmp_buffer [1, 2, 3] [1, 9, 3] 3 =
      (List.range ((3 + 15) / 16)).flatMap (render_row [1, 2, 3] [1, 9, 3] 3) ∧
    cmp_line (([1, 2, 3].drop (16 * 0)).take (min (3 - 16 * 0) 16))
        (([1, 9, 3].drop (16 * 0)).take (min (3 - 16 * 0) 16))
        (min (3 - 16 * 0) 16) =
      ((List.range' (16 * 0) (min (3 - 16 * 0) 16)).filter
        fun j => ([1, 2, 3] : List Nat).getD j 0 !=
          ([1, 9, 3] : List Nat).getD j 0).length :=
  cmp_buffer_row_rendering [1, 2, 3] [1, 9, 3] 3 0 (by decide) (by decide)
    (by decide)

/-- C8: on equal-length prefixes the raw `memcmp`-style mismatch
condition the Receive Worker aborts on holds exactly when the sum over
all 16-byte rows of the Diff renderer's per-row differing-byte counts
is positive. -/
theorem mismatch_iff_row_diff_sum_pos (b1 b2 : List Nat) (len : Nat)
    (h1 : len ≤ b1.length) (h2 : len ≤ b2.length) :
    (memcmp_ne b1 b2 len = true ↔ 0 < row_diff_sum b1 b2 len) := by
  rw [row_diff_sum_eq b1 b2 len h1 h2, ← List.countP_eq_length_filter,
    List.countP_pos_iff]
  unfold memcmp_ne
  rw [bne_iff_ne]
  constructor
  · intro hne
    by_contra hno
    push_neg at hno
    apply hne
    rw [take_eq_iff_getD b1 b2 len h1 h2]
    intro j hj
    by_contra hd
    refine hno j ?_ ?_
    · simp only [List.mem_range'_1]
      omega
    · simpa using hd
  · rintro ⟨j, hjmem, hp⟩ heq
    rw [take_eq_iff_getD b1 b2 len h1 h2] at heq
    simp only [List.mem_range'_1] at hjmem
    have hg := heq j (by omega)
    simp only [bne_iff_ne, ne_eq] at hp
    exact hp hg

/-- C8 witness: 1-byte buffers that differ. -/
theorem mismatch_iff_row_diff_sum_pos_witness :
    (memcmp_ne [5] [7] 1 = true ↔ 0 < row_diff_sum [5] [7] 1) :=
  mismatch_iff_row_diff_sum_pos [5] [7] 1 (by decide) (by decide)

/-! ## Round-level lemmas -/

theorem transmit_nonfatal_txAdd (m : msg) (w : Int)
    (hf : (transmit_start m w).fatal = false) :
    (transmit_start m w).txAdd = w.toNat ∧ m.len ≤ w.toNat ∧ 0 ≤ w := by
  by_cases hw : w < 0
  · simp [transmit_start, hw] at hf
  · by_cases hlt : w.toNat < m.len
    · simp [transmit_start, hw, hlt] at hf
    · simp only [transmit_start, if_neg hw, if_neg hlt]
      refine ⟨by simp, by omega, by omega⟩

theorem receive_start_done_of_ok (m : msg) (reads : List ReadRes)
    (s : brahe_prng_state_t)
    (h : (receive_start m reads s).status = .ok) :
    (rx_loop (brahe_prng_range s 1 m.len).1 reads 0).status = .done := by
  rcases hst : (rx_loop (brahe_prng_range s 1 m.len).1 reads 0).status
    with _ | _ | _
  · rfl
  · simp [receive_start, hst] at h
  · simp [receive_start, hst] at h

theorem do_round_ok (msglen : Nat) (io : RoundIO) (st st' : RunSt)
    (m : msg) (tl : Nat) (h : do_round msglen io st = .ok st' m tl) :
    m = (msg_gen (-(msglen : Int)) st.prng).1 ∧
    tl = (receive_start m io.reads
      (msg_gen (-(msglen : Int)) st.prng).2).truncLen ∧
    st' = ⟨(receive_start m io.reads
        (msg_gen (-(msglen : Int)) st.prng).2).prngEnd,
      st.tx + (transmit_start m io.writeRes).txAdd,
      st.rx + (receive_start m io.reads
        (msg_gen (-(msglen : Int)) st.prng).2).rxAdd,
      st.msgs⟩ ∧
    (transmit_start m io.writeRes).fatal = false ∧
    (receive_start m io.reads
      (msg_gen (-(msglen : Int)) st.prng).2).status = .ok := by
  simp only [do_round] at h
  split at h
  · simp at h
  · split at h
    · simp at h
    · rename_i hnf hns
      injection h with h1 h2 h3
      subst h1
      subst h2
      subst h3
      push_neg at hnf
      obtain ⟨hnr, hnm, hnt⟩ := hnf
      have hok : (receive_start (msg_gen (-(msglen : Int)) st.prng).1
          io.reads (msg_gen (-(msglen : Int)) st.prng).2).status = .ok := by
        rcases hsv : (receive_start (msg_gen (-(msglen : Int)) st.prng).1
            io.reads (msg_gen (-(msglen : Int)) st.prng).2).status
          with _ | _ | _ | _
        · rfl
        · exact absurd hsv hnr
        · exact absurd hsv hnm
        · exact absurd hsv hns
      exact ⟨rfl, rfl, rfl, by simpa using hnt, hok⟩

theorem run_rounds_codes (msglen : Nat) :
    ∀ (n : Nat) (ios : List RoundIO) (st : RunSt) (c : Int) (st' : RunSt)
      (tr : List (Nat × List Nat × Nat)),
      run_rounds msglen n ios st = .exit c st' tr → c = 0 ∨ c = -1 := by
  intro n
  induction n with
  | zero =>
    intro ios st c st' tr h
    simp only [run_rounds] at h
    injection h with h1 h2 h3
    left
    omega
  | succ n ih =>
    intro ios st c st' tr h
    cases ios with
    | nil =>
      simp only [run_rounds] at h
      exact absurd h (by simp)
    | cons io ios2 =>
      simp only [run_rounds] at h
      cases hdr : do_round msglen io st with
      | fatal st1 =>
        simp only [hdr] at h
        injection h with h1 h2 h3
        right
        omega
      | hang =>
        simp only [hdr] at h
        exact absurd h (by simp)
      | ok st1 m tl =>
        simp only [hdr] at h
        cases hrec : run_rounds msglen n ios2
            { st1 with msgs := st1.msgs + 1 } with
        | hang =>
          simp only [hrec] at h
          exact absurd h (by simp)
        | exit c2 st2 tr2 =>
          simp only [hrec] at h
          injection h with h1 h2 h3
          subst h1
          exact ih ios2 { st1 with msgs := st1.msgs + 1 } c2 st2 tr2 hrec

theorem run_unbounded_codes (msglen : Nat) :
    ∀ (ios : List RoundIO) (st : RunSt) (c : Int) (st' : RunSt)
      (tr : List (Nat × List Nat × Nat)),
      run_unbounded msglen ios st = .exit c st' tr → c = -1 := by
  intro ios
  induction ios with
  | nil =>
    intro st c st' tr h
    simp only [run_unbounded] at h
    exact absurd h (by simp)
  | cons io ios2 ih =>
    intro st c st' tr h
    simp only [run_unbounded] at h
    cases hdr : do_round msglen io st with
    | fatal st1 =>
      simp only [hdr] at h
      injection h with h1 h2 h3
      omega
    | hang =>
      simp only [hdr] at h
      exact absurd h (by simp)
    | ok st1 m tl =>
      simp only [hdr] at h
      cases hrec : run_unbounded msglen ios2
          { st1 with msgs := st1.msgs + 1 } with
      | hang =>
        simp only [hrec] at h
        exact absurd h (by simp)
      | exit c2 st2 tr2 =>
        simp only [hrec] at h
        injection h with h1 h2 h3
        subst h1
        exact ih { st1 with msgs := st1.msgs + 1 } c2 st2 tr2 hrec

theorem run_rounds_trace (msglen : Nat) :
    ∀ (n : Nat) (ios : List RoundIO) (st : RunSt) (st' : RunSt)
      (tr : List (Nat × List Nat × Nat)),
      run_rounds msglen n ios st = .exit 0 st' tr →
      tr = draw_trace msglen n st.prng := by
  intro n
  induction n with
  | zero =>
    intro ios st st' tr h
    simp only [run_rounds] at h
    injection h with h1 h2 h3
    subst h3
    rfl
  | succ n ih =>
    intro ios st st' tr h
    cases ios with
    | nil =>
      simp only [run_rounds] at h
      exact absurd h (by simp)
    | cons io ios2 =>
      simp only [run_rounds] at h
      cases hdr : do_round msglen io st with
      | fatal st1 =>
        simp only [hdr] at h
        injection h with h1 h2 h3
        exact absurd h1 (by decide)
      | hang =>
        simp only [hdr] at h
        exact absurd h (by simp)
      | ok st1 m tl =>
        simp only [hdr] at h
        cases hrec : run_rounds msglen n ios2
            { st1 with msgs := st1.msgs + 1 } with
        | hang =>
          simp only [hrec] at h
          exact absurd h (by simp)
        | exit c2 st2 tr2 =>
          simp only [hrec] at h
          injection h with h1 h2 h3
          subst h1
          obtain ⟨hm, htl, hst, htf, hrs⟩ :=
            do_round_ok msglen io st st1 m tl hdr
          obtain ⟨hT, hP, hR, hA⟩ := receive_start_fields m io.reads
            (msg_gen (-(msglen : Int)) st.prng).2
          have htr2 := ih ios2 { st1 with msgs := st1.msgs + 1 } st2 tr2 hrec
          rw [← h3, htr2]
          have e2 : ({ st1 with msgs := st1.msgs + 1 }).prng =
              (brahe_prng_range (msg_gen (-(msglen : Int)) st.prng).2 1
                m.len).2 := by
        
            rw [hst]
            exact hP
          rw [e2]
          simp only [draw_trace]
          rw [htl, hT, hm]
  

theorem run_rounds_stats (msglen : Nat) :
    ∀ (n : Nat) (ios : List RoundIO) (st : RunSt) (st' : RunSt)
      (tr : List (Nat × List Nat × Nat)),
      ios_wf msglen ios st.prng = true →
      run_rounds msglen n ios st = .exit 0 st' tr →
      st'.tx = st.tx + (tr.map fun t => t.1).sum ∧
      st'.rx = st.rx + (tr.map fun t => t.2.2).sum := by
  intro n
  induction n with
  | zero =>
    intro ios st st' tr hwf h
    simp only [run_rounds] at h
    injection h with h1 h2 h3
    subst h2
    subst h3
    simp
  | succ n ih =>
    intro ios st st' tr hwf h
    cases ios with
    | nil =>
      simp only [run_rounds] at h
      exact absurd h (by simp)
    | cons io ios2 =>
      simp only [run_rounds] at h
      cases hdr : do_round msglen io st with
      | fatal st1 =>
        simp only [hdr] at h
        injection h with h1 h2 h3
        exact absurd h1 (by decide)
      | hang =>
        simp only [hdr] at h
        exact absurd h (by simp)
      | ok st1 m tl =>
        simp only [hdr] at h
        cases hrec : run_rounds msglen n ios2
            { st1 with msgs := st1.msgs + 1 } with
        | hang =>
          simp only [hrec] at h
          exact absurd h (by simp)
        | exit c2 st2 tr2 =>
          simp only [hrec] at h
          injection h with h1 h2 h3
          subst h1
          subst h2
          obtain ⟨hm, htl, hst, htf, hrs⟩ :=
            do_round_ok msglen io st st1 m tl hdr
          subst hm
          obtain ⟨hT, hP, hR, hA⟩ := receive_start_fields
            (msg_gen (-(msglen : Int)) st.prng).1 io.reads
            (msg_gen (-(msglen : Int)) st.prng).2
          simp only [ios_wf, Bool.and_eq_true, decide_eq_true_eq] at hwf
          obtain ⟨⟨hwr, hrd⟩, hwf2⟩ := hwf
          have e2 : ({ st1 with msgs := st1.msgs + 1 }).prng =
              (brahe_prng_range (msg_gen (-(msglen : Int)) st.prng).2 1
                (msg_gen (-(msglen : Int)) st.prng).1.len).2 := by
            rw [hst]
            exact hP
          have hwfrec : ios_wf msglen ios2
              ({ st1 with msgs := st1.msgs + 1 }).prng = true := by
            rw [e2]
            exact hwf2
          have hstats := ih ios2 { st1 with msgs := st1.msgs + 1 } st2 tr2
            hwfrec hrec
          obtain ⟨hta, htb, htc⟩ := transmit_nonfatal_txAdd
            (msg_gen (-(msglen : Int)) st.prng).1 io.writeRes htf
          have htx : (transmit_start (msg_gen (-(msglen : Int)) st.prng).1
              io.writeRes).txAdd =
              (msg_gen (-(msglen : Int)) st.prng).1.len := by
            omega
          have hdone := receive_start_done_of_ok
            (msg_gen (-(msglen : Int)) st.prng).1 io.reads
            (msg_gen (-(msglen : Int)) st.prng).2 hrs
          have hrx0 := rx_loop_done_rxAdd
            (brahe_prng_range (msg_gen (-(msglen : Int)) st.prng).2 1
              (msg_gen (-(msglen : Int)) st.prng).1.len).1 io.reads 0 hrd
            (by omega) hdone
          have hrx : (receive_start (msg_gen (-(msglen : Int)) st.prng).1
              io.reads (msg_gen (-(msglen : Int)) st.prng).2).rxAdd = tl := by
            rw [hR, hrx0, htl, hT]
            omega
          rw [← h3]
          simp only [List.map_cons, List.sum_cons]
          have hsttx : st1.tx = st.tx +
              (transmit_start (msg_gen (-(msglen : Int)) st.prng).1
                io.writeRes).txAdd := by
            rw [hst]
          have hstrx : st1.rx = st.rx +
              (receive_start (msg_gen (-(msglen : Int)) st.prng).1 io.reads
                (msg_gen (-(msglen : Int)) st.prng).2).rxAdd := by
            rw [hst]
          have hm1 : ({ st1 with msgs := st1.msgs + 1 }).tx = st1.tx := rfl
          have hm2 : ({ st1 with msgs := st1.msgs + 1 }).rx = st1.rx := rfl
          rw [hm1, hm2] at hstats
          constructor
          · rw [hstats.1, hsttx, htx]
            omega
          · rw [hstats.2, hstrx, hrx]
            omega

theorem run_rounds_ok_iff (msglen : Nat) :
    ∀ (n : Nat) (ios : List RoundIO) (st : RunSt),
      ((∃ st' tr, run_rounds msglen n ios st = .exit 0 st' tr) ↔
        rounds_ok msglen n ios st = true) := by
  intro n
  induction n with
  | zero =>
    intro ios st
    constructor
    · intro _
      rfl
    · intro _
      exact ⟨st, [], rfl⟩
  | succ n ih =>
    intro ios st
    cases ios with
    | nil =>
      constructor
      · rintro ⟨st', tr, h⟩
        simp only [run_rounds] at h
        exact absurd h (by simp)
      · intro h
        simp only [rounds_ok] at h
        exact absurd h (by simp)
    | cons io ios2 =>
      constructor
      · rintro ⟨st', tr, h⟩
        simp only [run_rounds] at h
        cases hdr : do_round msglen io st with
        | fatal st1 =>
          simp only [hdr] at h
          injection h with h1 h2 h3
          exact absurd h1 (by decide)
        | hang =>
          simp only [hdr] at h
          exact absurd h (by simp)
        | ok st1 m tl =>
          simp only [hdr] at h
          simp only [rounds_ok, hdr]
          cases hrec : run_rounds msglen n ios2
              { st1 with msgs := st1.msgs + 1 } with
          | hang =>
            simp only [hrec] at h
            exact absurd h (by simp)
          | exit c2 st2 tr2 =>
            simp only [hrec] at h
            injection h with h1 h2 h3
            subst h1
            exact (ih ios2 { st1 with msgs := st1.msgs + 1 }).mp
              ⟨st2, tr2, hrec⟩
      · intro h
        simp only [rounds_ok] at h
        cases hdr : do_round msglen io st with
        | fatal st1 =>
          simp only [hdr] at h
          exact absurd h (by simp)
        | hang =>
          simp only [hdr] at h
          exact absurd h (by simp)
        | ok st1 m tl =>
          simp only [hdr] at h
          obtain ⟨st2, tr2, hrec⟩ :=
            (ih ios2 { st1 with msgs := st1.msgs + 1 }).mpr h
          refine ⟨st2, (m.len, m.buf, tl) :: tr2, ?_⟩
          simp only [run_rounds, hdr, hrec]

/-- C4: for a fixed seed and configuration, every completed run yields
the same sequence of (message length, message body, truncation length)
triples — the pure draw trace of the generator — independently of the
transport's write results and read chunking; in particular two
completed runs have identical traces.  The serialization underlying
this: the Message Builder draws before the workers start, the Receive
Worker draws exactly once after, and the Transmit Worker (which takes
no generator state at all) never draws. -/
theorem run_trace_deterministic (seed msglen nmsgs : Nat)
    (ios1 ios2 : List RoundIO) (st1 st2 : RunSt)
    (tr1 tr2 : List (Nat × List Nat × Nat))
    (h1 : fifotest_main seed msglen nmsgs ios1 = .exit 0 st1 tr1)
    (h2 : fifotest_main seed msglen nmsgs ios2 = .exit 0 st2 tr2) :
    tr1 = draw_trace msglen nmsgs (brahe_prng_init seed) ∧ tr1 = tr2 := by
  by_cases hz : nmsgs = 0
  · subst hz
    simp only [fifotest_main, if_pos rfl] at h1
    have hc := run_unbounded_codes msglen ios1
      ⟨brahe_prng_init seed, 0, 0, 0⟩ 0 st1 tr1 h1
    exact absurd hc (by decide)
  · simp only [fifotest_main, if_neg hz] at h1 h2
    have t1 := run_rounds_trace msglen nmsgs ios1
      ⟨brahe_prng_init seed, 0, 0, 0⟩ st1 tr1 h1
    have t2 := run_rounds_trace msglen nmsgs ios2
      ⟨brahe_prng_init seed, 0, 0, 0⟩ st2 tr2 h2
    exact ⟨t1, by rw [t1, t2]⟩

/-- C4 witness: two completed seed-42 runs whose transports chunk reads
differently produce the same trace. -/
theorem run_trace_deterministic_witness :
    [((4 : Nat), [(96 : Nat), 165, 234, 47], (1 : Nat))] =
      draw_trace 4 1 (brahe_prng_init 42) ∧
    [((4 : Nat), [(96 : Nat), 165, 234, 47], (1 : Nat))] =
      [((4 : Nat), [(96 : Nat), 165, 234, 47], (1 : Nat))] :=
  run_trace_deterministic 42 4 1 [⟨4, [.ok [96]]⟩]
    [⟨4, [.ok [], .ok [96]]⟩] ⟨⟨42, 6⟩, 4, 1, 1⟩ ⟨⟨42, 6⟩, 4, 1, 1⟩
    [(4, [96, 165, 234, 47], 1)] [(4, [96, 165, 234, 47], 1)]
    rfl rfl

/-- C5: after a completed run under a size-respecting transport, the
cumulative transmitted-byte total equals the sum of the message lengths
of the completed rounds, and the cumulative received-byte total equals
the sum of the rounds' truncation lengths; the per-round updates
preserve this invariant. -/
theorem stats_accuracy (seed msglen nmsgs : Nat) (ios : List RoundIO)
    (st : RunSt) (tr : List (Nat × List Nat × Nat))
    (hwf : ios_wf msglen ios (brahe_prng_init seed) = true)
    (h : fifotest_main seed msglen nmsgs ios = .exit 0 st tr) :
    st.tx = (tr.map fun t => t.1).sum ∧
    st.rx = (tr.map fun t => t.2.2).sum := by
  by_cases hz : nmsgs = 0
  · subst hz
    simp only [fifotest_main, if_pos rfl] at h
    have hc := run_unbounded_codes msglen ios
      ⟨brahe_prng_init seed, 0, 0, 0⟩ 0 st tr h
    exact absurd hc (by decide)
  · simp only [fifotest_main, if_neg hz] at h
    have hs := run_rounds_stats msglen nmsgs ios
      ⟨brahe_prng_init seed, 0, 0, 0⟩ st tr hwf h
    simpa using hs

/-- C5 witness: one completed seed-42 round; TX total 4 = message
length, RX total 1 = truncation length. -/
theorem stats_accuracy_witness :
    (⟨⟨42, 6⟩, 4, 1, 1⟩ : RunSt).tx =
      (([((4 : Nat), [(96 : Nat), 165, 234, 47], (1 : Nat))].map
        fun t => t.1).sum) ∧
    (⟨⟨42, 6⟩, 4, 1, 1⟩ : RunSt).rx =
      (([((4 : Nat), [(96 : Nat), 165, 234, 47], (1 : Nat))].map
        fun t => t.2.2).sum) :=
  stats_accuracy 42 4 1 [⟨4, [.ok [96]]⟩] ⟨⟨42, 6⟩, 4, 1, 1⟩
    [(4, [96, 165, 234, 47], 1)] (by decide) rfl

/-- C9: with a positive configured message count, the process exits
with code 0 exactly when all configured rounds complete with no fatal
condition; any exit code is 0 or -1 (so every fatal I/O error or data
mismatch exit is non-zero); and the external-interrupt handler prints
the statistics and exits with the non-zero code -1. -/
theorem exit_code_spec (seed msglen nmsgs : Nat) (ios : List RoundIO)
    (hn : 0 < nmsgs) :
    ((∃ st tr, fifotest_main seed msglen nmsgs ios = .exit 0 st tr) ↔
      rounds_ok msglen nmsgs ios ⟨brahe_prng_init seed, 0, 0, 0⟩ = true) ∧
    (∀ (c : Int) (st : RunSt) (tr : List (Nat × List Nat × Nat)),
      fifotest_main seed msglen nmsgs ios = .exit c st tr →
      c = 0 ∨ c = -1) ∧
    signal_handler.2 ≠ 0 ∧ Event.statsLine ∈ signal_handler.1 := by
  have hz : ¬ nmsgs = 0 := by omega
  refine ⟨?_, ?_, by decide, by decide⟩
  · simp only [fifotest_main, if_neg hz]
    exact run_rounds_ok_iff msglen nmsgs ios ⟨brahe_prng_init seed, 0, 0, 0⟩
  · intro c st tr h
    simp only [fifotest_main, if_neg hz] at h
    exact run_rounds_codes msglen nmsgs ios
      ⟨brahe_prng_init seed, 0, 0, 0⟩ c st tr h

/-- C9 witness: instantiated at a completed one-round seed-42 run. -/
theorem exit_code_spec_witness :
    ((∃ st tr, fifotest_main 42 4 1 [⟨4, [.ok [96]]⟩] = .exit 0 st tr) ↔
      rounds_ok 4 1 [⟨4, [.ok [96]]⟩]
        ⟨brahe_prng_init 42, 0, 0, 0⟩ = true) ∧
    (∀ (c : Int) (st : RunSt) (tr : List (Nat × List Nat × Nat)),
      fifotest_main 42 4 1 [⟨4, [.ok [96]]⟩] = .exit c st tr →
      c = 0 ∨ c = -1) ∧
    signal_handler.2 ≠ 0 ∧ Event.statsLine ∈ signal_handler.1 :=
  exit_code_spec 42 4 1 [⟨4, [.ok [96]]⟩] (by decide)

end Fifotest
